import Mathlib

/-!
Verification of the job-submission and naming layer of the
kernel-view-to-explainability repository.

The development shallowly embeds, from the Python sources:

* the experiment identifier and checkpoint-path derivation of
  src/src/utils.py (enum switches, get_experiment_prefix, get_save_path),
  with Python strings modelled as lists of characters and str(n) on a
  natural number modelled by a decimal rendering function;
* the hyperparameter grid expansion (itertools.product, used at the top
  of submit_training, submit_grads and submit_measurements in
  src/submission/utils.py);
* the checkpoint / output-directory existence filters of submit_training
  (lines 40-51) and submit_grads (lines 93-105), with the filesystem
  modelled as a boolean existence predicate on paths;
* the dispatcher execute_job_submission (lines 132-174), modelled as a
  pure function from its inputs (blocking flag, port flag, job table,
  the operator reply read from standard input, and the behaviour of one
  job as a result-or-failure function) to an observable trace: whether
  the confirmation prompt is reached, which calls to the job function
  are issued and with which argument shape, and the Python return value
  or raised error of the dispatcher call itself.
-/

/-- Characters of a string literal; Python strings are modelled as lists
of characters throughout. -/
def strChars (s : String) : List Char := s.data

/-- Decimal rendering loop: fuel-indexed so that it is structurally
recursive; called with fuel larger than the number of digits. Models how
str() renders a non-negative integer. -/
def natStrGo : Nat → Nat → List Char → List Char
  | 0, _, acc => acc
  | fuel + 1, n, acc =>
    let d := Nat.digitChar (n % 10)
    let q := n / 10
    if q = 0 then d :: acc else natStrGo fuel q (d :: acc)

/-- Decimal rendering of a natural number, the model of str(n). -/
def natStr (n : Nat) : List Char := natStrGo (n + 1) n []

/-- Model of sep.join(xs) on Python strings. -/
def joinSep (sep : List Char) : List (List Char) → List Char
  | [] => []
  | [x] => x
  | x :: y :: xs => x ++ sep ++ joinSep sep (y :: xs)

/-- ModelSwitch enum of src/src/utils.py. -/
inductive ModelSwitch where
  | SIMPLE_CNN_DEPTH
  | SIMPLE_CNN
  | SIMPLE_CNN_BN
  | SIMPLE_CNN_SK
  | SIMPLE_CNN_SK_BN
  | RESNET18
  | RESNET34
  | RESNET50
  | RESNET_BASIC
  | RESNET_BOTTLENECK
deriving DecidableEq

/-- Numeric value of each ModelSwitch member, as in the source. -/
def modelValue : ModelSwitch → Nat
  | .SIMPLE_CNN_DEPTH => 1000
  | .SIMPLE_CNN => 1001
  | .SIMPLE_CNN_BN => 1007
  | .SIMPLE_CNN_SK => 1008
  | .SIMPLE_CNN_SK_BN => 1009
  | .RESNET18 => 1002
  | .RESNET34 => 1003
  | .RESNET50 => 1004
  | .RESNET_BASIC => 1005
  | .RESNET_BOTTLENECK => 1006

/-- str() of a ModelSwitch member: the member name (ConvertableEnum
defines str as self.name). -/
def modelName : ModelSwitch → List Char
  | .SIMPLE_CNN_DEPTH => strChars "SIMPLE_CNN_DEPTH"
  | .SIMPLE_CNN => strChars "SIMPLE_CNN"
  | .SIMPLE_CNN_BN => strChars "SIMPLE_CNN_BN"
  | .SIMPLE_CNN_SK => strChars "SIMPLE_CNN_SK"
  | .SIMPLE_CNN_SK_BN => strChars "SIMPLE_CNN_SK_BN"
  | .RESNET18 => strChars "RESNET18"
  | .RESNET34 => strChars "RESNET34"
  | .RESNET50 => strChars "RESNET50"
  | .RESNET_BASIC => strChars "RESNET_BASIC"
  | .RESNET_BOTTLENECK => strChars "RESNET_BOTTLENECK"

/-- ActivationSwitch enum of src/src/utils.py. -/
inductive ActivationSwitch where
  | SOFTPLUS_B_01
  | SOFTPLUS_B_1
  | SOFTPLUS_B_2
  | SOFTPLUS_B100
  | SOFTPLUS_B10
  | SOFTPLUS_B7
  | SOFTPLUS_B5
  | SOFTPLUS_B3
  | SOFTPLUS_B1
  | LEAKY_RELU
  | RELU
deriving DecidableEq

/-- Numeric value of each ActivationSwitch member, as in the source. -/
def activationValue : ActivationSwitch → Nat
  | .SOFTPLUS_B_01 => 11
  | .SOFTPLUS_B_1 => 12
  | .SOFTPLUS_B_2 => 13
  | .SOFTPLUS_B100 => 17
  | .SOFTPLUS_B10 => 16
  | .SOFTPLUS_B7 => 18
  | .SOFTPLUS_B5 => 15
  | .SOFTPLUS_B3 => 19
  | .SOFTPLUS_B1 => 14
  | .LEAKY_RELU => 21
  | .RELU => 10

/-- str() of an ActivationSwitch member: the member name. -/
def activationName : ActivationSwitch → List Char
  | .SOFTPLUS_B_01 => strChars "SOFTPLUS_B_01"
  | .SOFTPLUS_B_1 => strChars "SOFTPLUS_B_1"
  | .SOFTPLUS_B_2 => strChars "SOFTPLUS_B_2"
  | .SOFTPLUS_B100 => strChars "SOFTPLUS_B100"
  | .SOFTPLUS_B10 => strChars "SOFTPLUS_B10"
  | .SOFTPLUS_B7 => strChars "SOFTPLUS_B7"
  | .SOFTPLUS_B5 => strChars "SOFTPLUS_B5"
  | .SOFTPLUS_B3 => strChars "SOFTPLUS_B3"
  | .SOFTPLUS_B1 => strChars "SOFTPLUS_B1"
  | .LEAKY_RELU => strChars "LEAKY_RELU"
  | .RELU => strChars "RELU"

/-- DatasetSwitch enum of src/src/utils.py. -/
inductive DatasetSwitch where
  | CIFAR10
  | MNIST
  | IMAGENETTE
  | FASHION_MNIST
  | GRADS
deriving DecidableEq

/-- Numeric value of each DatasetSwitch member, as in the source. -/
def datasetValue : DatasetSwitch → Nat
  | .CIFAR10 => 200
  | .MNIST => 201
  | .IMAGENETTE => 202
  | .FASHION_MNIST => 203
  | .GRADS => 299

/-- str() of a DatasetSwitch member: the member name. -/
def datasetName : DatasetSwitch → List Char
  | .CIFAR10 => strChars "CIFAR10"
  | .MNIST => strChars "MNIST"
  | .IMAGENETTE => strChars "IMAGENETTE"
  | .FASHION_MNIST => strChars "FASHION_MNIST"
  | .GRADS => strChars "GRADS"

/-- One hyperparameter record (one row of the job table). The fields
consumed by the identifier carry the types the pipeline gives them:
enum switches for dataset, model and activation, naturals for seed and
image size, and a list of layer sizes. The l2_reg field is kept as its
printed form (Python renders distinct float values as distinct strings).
The extras field stands for all remaining columns of the row (epochs,
port, timeout, batch size, ...), which get_experiment_prefix receives
through its catch-all keyword argument and ignores. -/
structure JobRecord where
  dataset : DatasetSwitch
  model_name : ModelSwitch
  layers : List Nat
  activation : ActivationSwitch
  seed : Nat
  l2_reg : List Char
  img_size : Nat
  extras : List (List Char × List Char)
deriving DecidableEq

/-- The separator constant of src/src/utils.py. -/
def EXPERIMENT_PREFIX_SEP : List Char := strChars "::"

/-- Model of os.path.join(a, b) for a non-empty a not ending in a slash
and a relative b, the shapes this repository joins (a dataset name, and
a configured output root with an identifier). -/
def path_join (a b : List Char) : List Char := a ++ '/' :: b

/-- Embedding of get_experiment_prefix (src/src/utils.py lines 79-101):
build name_list from the consumed fields in source order, join it with
EXPERIMENT_PREFIX_SEP, and path-join the dataset name in front. -/
def get_experiment_prefix (r : JobRecord) : List Char :=
  let name_list : List (List Char) :=
    [modelName r.model_name,
     joinSep ['_'] (r.layers.map natStr),
     activationName r.activation,
     natStr r.seed,
     r.l2_reg,
     natStr r.img_size]
  path_join (datasetName r.dataset) (joinSep EXPERIMENT_PREFIX_SEP name_list)

/-- Embedding of get_save_path (src/src/utils.py lines 104-111). -/
def get_save_path (r : JobRecord) : List Char :=
  strChars "checkpoints/" ++ ( get_experiment_prefix r) ++ strChars ".pt"

/-- Identifier written from the words of the spec: dataset name as a
path segment, then model name, layer sizes joined by underscore,
activation name, seed, l2 strength and image size, in that order, joined
by the two-colon separator. Used to compare against the embedded source
function. -/
def specIdentifier (r : JobRecord) : List Char :=
  datasetName r.dataset ++ strChars "/" ++
    modelName r.model_name ++ strChars "::" ++
    joinSep ['_'] (r.layers.map natStr) ++ strChars "::" ++
    activationName r.activation ++ strChars "::" ++
    natStr r.seed ++ strChars "::" ++
    r.l2_reg ++ strChars "::" ++
    natStr r.img_size

/-- Checkpoint path written from the words of the spec. -/
def specSavePath (r : JobRecord) : List Char :=
  strChars "checkpoints/" ++ specIdentifier r ++ strChars ".pt"

/-- Outcome of the training submission filter (src/submission/utils.py
lines 40-51): the rows skipped because their checkpoint already exists,
and the rows handed to the dispatcher. -/
structure TrainingSubmission where
  skipped : List JobRecord
  submitted : List JobRecord
deriving DecidableEq

/-- Embedding of the existence filter of submit_training
(src/submission/utils.py lines 40-51): checkpoint_exists is the mask of
rows whose derived checkpoint path exists; the rows under the mask are
reported as skipped, the rest become valid_args and are handed to
execute_job_submission. The filesystem is the predicate fs. -/
def submit_training_filter (fs : List Char → Bool) (rows : List JobRecord) :
    TrainingSubmission :=
  let checkpoint_exists := fun r => fs ( get_save_path r)
  { skipped := rows.filter (fun r => checkpoint_exists r),
    submitted := rows.filter (fun r => ! checkpoint_exists r) }

/-- Outcome of the gradient submission filter (src/submission/utils.py
lines 93-105): the rows reported with a missing checkpoint, the rows
reported with an existing output directory, and the rows handed to the
dispatcher. -/
structure GradsSubmission where
  checkpointMissing : List JobRecord
  outputExists : List JobRecord
  submitted : List JobRecord
deriving DecidableEq

/-- Embedding of the existence filter of submit_grads
(src/submission/utils.py lines 93-105). The experiment output directory
is the configured output root (paths.LOCAL_OUTPUT_DIR, passed here as
outputRoot since the paths module only holds the configured constant)
path-joined with the experiment identifier. valid_ids is the conjunction
checkpoint_exists AND NOT output_dir_exists; the code reports the rows
outside checkpoint_exists and the rows inside output_dir_exists. -/
def submit_grads_filter (fs : List Char → Bool) (outputRoot : List Char)
    (rows : List JobRecord) : GradsSubmission :=
  let output_dir_exists := fun r => fs (path_join outputRoot ( get_experiment_prefix r))
  let checkpoint_exists := fun r => fs ( get_save_path r)
  { checkpointMissing := rows.filter (fun r => ! checkpoint_exists r),
    outputExists := rows.filter (fun r => output_dir_exists r),
    submitted := rows.filter (fun r => checkpoint_exists r && ! output_dir_exists r) }

/-- Embedding of itertools.product over a list of value lists, in the
order the Python iterator yields tuples: the first list varies slowest,
the last list varies fastest. -/
def listProduct {α : Type} : List (List α) → List (List α)
  | [] => [[]]
  | l :: ls => l.flatMap (fun x => (listProduct ls).map (fun t => x :: t))

/-- The record selected by one index per value list. -/
def selectIdx {α : Type} [Inhabited α] : List (List α) → List Nat → List α
  | l :: ls, i :: is => l.getD i default :: selectIdx ls is
  | _, _ => []

/-- Mixed-radix position of an index tuple in the expanded table:
the last index is the fastest-moving digit. -/
def rankIdx {α : Type} : List (List α) → List Nat → Nat
  | _ :: ls, i :: is => i * (ls.map List.length).prod + rankIdx ls is
  | _, _ => 0

/-- Shape of one invocation of the job function: in local mode the
dispatcher passes the whole (truncated) list of records as the single
argument; in remote array mode the executor maps the function over the
records, so each invocation receives one record. -/
inductive FuncArg (ρ : Type) where
  | wholeTable (rows : List ρ)
  | singleRecord (row : ρ)
deriving DecidableEq

/-- Error raised out of a dispatcher call: the index error raised by
taking the first element of an empty list at the truncation step, or a
job failure propagated by a blocking result fetch. -/
inductive PyRunError (E : Type) where
  | indexErr
  | jobErr (e : E)
deriving DecidableEq

/-- Observable trace of one execute_job_submission call: whether the
confirmation prompt was reached, the job-function invocations issued
(with their argument shape), and the Python return value (none models
returning None) or the raised error. -/
structure ExecTrace (ρ E R : Type) where
  promptShown : Bool
  funcCalls : List (FuncArg ρ)
  outcome : Except (PyRunError E) (Option (List R))

/-- Embedding of the blocking wait, the list comprehension
[job.result() for job in jobs] (src/submission/utils.py line 172):
results are fetched sequentially in submission order, and the first
failure is raised at the point its result is requested, so no later
result is fetched. -/
def collectResults {ρ E R : Type} (runJob : ρ → Except E R) :
    List ρ → Except E (List R)
  | [] => .ok []
  | j :: js =>
    match runJob j with
    | .error e => .error e
    | .ok v =>
      match collectResults runJob js with
      | .error e => .error e
      | .ok vs => .ok (v :: vs)

/-- The dispatcher after the truncation step (src/submission/utils.py
lines 144-174): the empty check is on the original table, the prompt
accepts only the literal y, port equal to zero runs the job function
directly on the whole truncated list, and otherwise the records are
mapped over the remote executor, with an optional blocking wait. -/
def dispatchAfterChecks {ρ E R : Type} (block_main : Bool) (port : Option Int)
    (rows jobs_args : List ρ) (user : List Char) (runJob : ρ → Except E R) :
    ExecTrace ρ E R :=
  if rows.length = 0 then
    { promptShown := false, funcCalls := [], outcome := .ok none }
  else if user ≠ strChars "y" then
    { promptShown := true, funcCalls := [], outcome := .ok none }
  else if port = some 0 then
    { promptShown := true, funcCalls := [FuncArg.wholeTable jobs_args],
      outcome := .ok none }
  else
    let calls := jobs_args.map FuncArg.singleRecord
    if block_main then
      match collectResults runJob jobs_args with
      | .ok results =>
        { promptShown := true, funcCalls := calls, outcome := .ok (some results) }
      | .error e =>
        { promptShown := true, funcCalls := calls,
          outcome := .error (PyRunError.jobErr e) }
    else
      { promptShown := true, funcCalls := calls, outcome := .ok none }

/-- Embedding of execute_job_submission (src/submission/utils.py lines
132-174). When the port flag is set the job list is truncated to its
first record (line 143), which raises an index error on an empty list;
this happens before the empty-table check of line 144. -/
def execute_job_submission {ρ E R : Type} (block_main : Bool) (port : Option Int)
    (rows : List ρ) (user : List Char) (runJob : ρ → Except E R) :
    ExecTrace ρ E R :=
  match port, rows with
  | some _, [] =>
    { promptShown := false, funcCalls := [], outcome := .error PyRunError.indexErr }
  | some p, r :: rest => dispatchAfterChecks block_main (some p) (r :: rest) [r] user runJob
  | none, rows => dispatchAfterChecks block_main none rows rows user runJob

/-- All records handed to the job function by a trace, counting every
record of a whole-table call and the record of each single-record call. -/
def dispatchedRecords {ρ E R : Type} (t : ExecTrace ρ E R) : List ρ :=
  t.funcCalls.flatMap (fun c =>
    match c with
    | .wholeTable l => l
    | .singleRecord r => [r])

/-- Equality of result-or-failure values is decidable when both
component types have decidable equality. -/
instance {E R : Type} [DecidableEq E] [DecidableEq R] : DecidableEq (Except E R) := fun a b =>
  match a, b with
  | .ok x, .ok y =>
    if h : x = y then .isTrue (by rw [h]) else .isFalse (fun hh => h (Except.ok.inj hh))
  | .error x, .error y =>
    if h : x = y then .isTrue (by rw [h]) else .isFalse (fun hh => h (Except.error.inj hh))
  | .ok _, .error _ => .isFalse (fun hh => Except.noConfusion hh)
  | .error _, .ok _ => .isFalse (fun hh => Except.noConfusion hh)

/-- Fixture record for concrete witnesses and counterexamples. -/
def sampleRecord : JobRecord :=
  { dataset := DatasetSwitch.MNIST, model_name := ModelSwitch.SIMPLE_CNN,
    layers := [3, 12], activation := ActivationSwitch.RELU, seed := 1,
    l2_reg := strChars "0.01", img_size := 28, extras := [] }

/-- Fixture filesystem on which exactly the output directory of the
fixture record under the root named outputs exists. -/
def sampleFsOutputOnly : List Char → Bool :=
  fun p => decide (p = path_join (strChars "outputs") ( get_experiment_prefix sampleRecord))

/-- Distinct digits below ten render to distinct characters. -/
theorem digitChar_inj_lt : ∀ d1 < 10, ∀ d2 < 10,
    Nat.digitChar d1 = Nat.digitChar d2 → d1 = d2 := by decide

/-- Digit characters are none of the three separator characters used by
the identifier. -/
theorem digitChar_not_sep : ∀ d < 10,
    Nat.digitChar d ≠ ':' ∧ Nat.digitChar d ≠ '_' ∧ Nat.digitChar d ≠ '/' := by decide

/-- The fuel-indexed rendering loop agrees with the big-endian digit
expansion once the fuel bounds the input. -/
theorem natStrGo_eq (fuel : Nat) : ∀ (n : Nat) (acc : List Char), n ≠ 0 → n < 10 ^ fuel →
    natStrGo fuel n acc = ((Nat.digits 10 n).map Nat.digitChar).reverse ++ acc := by
  induction fuel with
  | zero =>
    intro n acc hn h
    simp only [pow_zero, Nat.lt_one_iff] at h
    exact absurd h hn
  | succ fuel ih =>
    intro n acc hn h
    simp only [natStrGo]
    by_cases hq : n / 10 = 0
    · have hlt : n < 10 := by omega
      rw [if_pos hq, Nat.digits_def' (by norm_num : (1:ℕ) < 10) (Nat.pos_of_ne_zero hn)]
      rw [hq, Nat.digits_zero, Nat.mod_eq_of_lt hlt]
      simp
    · have hdiv : n / 10 < 10 ^ fuel := by
        have h10 : n < 10 ^ fuel * 10 := by
          calc n < 10 ^ (fuel + 1) := h
          _ = 10 ^ fuel * 10 := by rw [pow_succ]
        omega
      rw [if_neg hq, ih (n / 10) _ hq hdiv]
      rw [Nat.digits_def' (by norm_num : (1:ℕ) < 10) (Nat.pos_of_ne_zero hn)]
      simp

/-- Closed form of the decimal rendering. -/
theorem natStr_eq (n : Nat) :
    natStr n = if n = 0 then ['0']
      else ((Nat.digits 10 n).map Nat.digitChar).reverse := by
  by_cases h : n = 0
  · subst h; rfl
  · rw [if_neg h, natStr, natStrGo_eq (n + 1) n [] h]
    · simp
    · calc n < 10 ^ n := Nat.lt_pow_self (by norm_num) n
      _ ≤ 10 ^ (n + 1) := Nat.pow_le_pow_right (by norm_num) (Nat.le_succ n)

/-- Every character of a rendered natural number is a digit character. -/
theorem natStr_chars {n : Nat} {c : Char} (h : c ∈ natStr n) :
    ∃ d, d < 10 ∧ c = Nat.digitChar d := by
  rw [natStr_eq] at h
  by_cases h0 : n = 0
  · rw [if_pos h0] at h
    simp only [List.mem_singleton] at h
    exact ⟨0, by norm_num, by rw [h]; rfl⟩
  · rw [if_neg h0, List.mem_reverse] at h
    obtain ⟨d, hd, rfl⟩ := List.mem_map.mp h
    exact ⟨d, Nat.digits_lt_base (by norm_num) hd, rfl⟩

/-- Rendered naturals contain no colon, underscore or slash. -/
theorem natStr_sep_free (n : Nat) :
    (':') ∉ natStr n ∧ ('_') ∉ natStr n ∧ ('/') ∉ natStr n := by
  refine ⟨fun h => ?_, fun h => ?_, fun h => ?_⟩ <;>
    obtain ⟨d, hd, he⟩ := natStr_chars h
  · exact (digitChar_not_sep d hd).1 he.symm
  · exact (digitChar_not_sep d hd).2.1 he.symm
  · exact (digitChar_not_sep d hd).2.2 he.symm

/-- A rendered natural number is never the empty string. -/
theorem natStr_ne_nil (n : Nat) : natStr n ≠ [] := by
  rw [natStr_eq]
  by_cases h : n = 0
  · simp [h]
  · simp only [if_neg h, ne_eq, List.reverse_eq_nil_iff, List.map_eq_nil_iff]
    exact Nat.digits_ne_nil_iff_ne_zero.mpr h

/-- Mapping digitChar over digit lists is injective. -/
theorem map_digitChar_inj : ∀ (l1 l2 : List Nat), (∀ d ∈ l1, d < 10) → (∀ d ∈ l2, d < 10) →
    l1.map Nat.digitChar = l2.map Nat.digitChar → l1 = l2 := by
  intro l1
  induction l1 with
  | nil => intro l2 _ _ h; cases l2 <;> simp_all
  | cons a t ih =>
    intro l2 h1 h2 h
    cases l2 with
    | nil => simp at h
    | cons b u =>
      simp only [List.map_cons, List.cons.injEq] at h
      have ha : a = b :=
        digitChar_inj_lt a (h1 a (by simp)) b (h2 b (by simp)) h.1
      have ht : t = u :=
        ih u (fun d hd => h1 d (by simp [hd])) (fun d hd => h2 d (by simp [hd])) h.2
      rw [ha, ht]

/-- Decimal rendering is injective: distinct naturals print differently. -/
theorem natStr_injective : Function.Injective natStr := by
  intro m n h
  rw [natStr_eq, natStr_eq] at h
  by_cases hm : m = 0 <;> by_cases hn : n = 0
  · rw [hm, hn]
  · exfalso
    rw [if_pos hm, if_neg hn] at h
    have h2 : (Nat.digits 10 n).map Nat.digitChar = ['0'] := by
      have := congrArg List.reverse h
      simpa using this.symm
    cases hdig : Nat.digits 10 n with
    | nil => exact absurd hdig (Nat.digits_ne_nil_iff_ne_zero.mpr hn)
    | cons d t =>
      rw [hdig] at h2
      simp only [List.map_cons, List.cons.injEq, List.map_eq_nil_iff] at h2
      have hd10 : d < 10 := Nat.digits_lt_base (by norm_num) (by rw [hdig]; simp)
      have hd0 : d = 0 := digitChar_inj_lt d hd10 0 (by norm_num) (by rw [h2.1]; rfl)
      have : n = 0 := by
        have hof := Nat.ofDigits_digits 10 n
        rw [hdig, h2.2, hd0] at hof
        simpa using hof.symm
      exact hn this
  · exfalso
    rw [if_neg hm, if_pos hn] at h
    have h2 : (Nat.digits 10 m).map Nat.digitChar = ['0'] := by
      have := congrArg List.reverse h
      simpa using this
    cases hdig : Nat.digits 10 m with
    | nil => exact absurd hdig (Nat.digits_ne_nil_iff_ne_zero.mpr hm)
    | cons d t =>
      rw [hdig] at h2
      simp only [List.map_cons, List.cons.injEq, List.map_eq_nil_iff] at h2
      have hd10 : d < 10 := Nat.digits_lt_base (by norm_num) (by rw [hdig]; simp)
      have hd0 : d = 0 := digitChar_inj_lt d hd10 0 (by norm_num) (by rw [h2.1]; rfl)
      have : m = 0 := by
        have hof := Nat.ofDigits_digits 10 m
        rw [hdig, h2.2, hd0] at hof
        simpa using hof.symm
      exact hm this
  · rw [if_neg hm, if_neg hn] at h
    have h2 := List.reverse_injective h
    have h3 := map_digitChar_inj (Nat.digits 10 m) (Nat.digits 10 n)
      (fun d hd => Nat.digits_lt_base (by norm_num) hd)
      (fun d hd => Nat.digits_lt_base (by norm_num) hd) h2
    have hof := Nat.ofDigits_digits 10 m
    rw [h3, Nat.ofDigits_digits] at hof
    exact hof.symm

/-- The separator constant as an explicit character list. -/
theorem sep_chars : EXPERIMENT_PREFIX_SEP = [':', ':'] := rfl

/-- Splitting at the first occurrence of a separator character: two
decompositions around a character absent from both left parts agree. -/
theorem append_cons_sep_inj {c : Char} : ∀ (a b x y : List Char), c ∉ a → c ∉ b →
    a ++ c :: x = b ++ c :: y → a = b ∧ x = y := by
  intro a
  induction a with
  | nil =>
    intro b x y _ hb h
    cases b with
    | nil => simpa using h
    | cons d bs =>
      exfalso
      simp only [List.nil_append, List.cons_append, List.cons.injEq] at h
      exact hb (h.1 ▸ List.mem_cons_self d bs)
  | cons d as ih =>
    intro b x y ha hb h
    cases b with
    | nil =>
      exfalso
      simp only [List.cons_append, List.nil_append, List.cons.injEq] at h
      exact ha (h.1 ▸ List.mem_cons_self d as)
    | cons e bs =>
      simp only [List.cons_append, List.cons.injEq] at h
      have ha2 : c ∉ as := fun hc => ha (List.mem_cons_of_mem d hc)
      have hb2 : c ∉ bs := fun hc => hb (List.mem_cons_of_mem e hc)
      obtain ⟨h1, h2⟩ := ih bs x y ha2 hb2 h.2
      exact ⟨by rw [h.1, h1], h2⟩

/-- A character of a joined string comes from the separator or from one
of the components. -/
theorem mem_joinSep {sep : List Char} {c : Char} : ∀ {xs : List (List Char)},
    c ∈ joinSep sep xs → c ∈ sep ∨ ∃ x ∈ xs, c ∈ x := by
  intro xs
  induction xs with
  | nil => intro h; simp [joinSep] at h
  | cons x t ih =>
    cases t with
    | nil =>
      intro h
      simp only [joinSep] at h
      exact Or.inr ⟨x, by simp, h⟩
    | cons y u =>
      intro h
      simp only [joinSep, List.append_assoc, List.mem_append] at h
      rcases h with h | h | h
      · exact Or.inr ⟨x, by simp, h⟩
      · exact Or.inl h
      · rcases ih h with h | ⟨z, hz, hcz⟩
        · exact Or.inl h
        · exact Or.inr ⟨z, List.mem_cons_of_mem x hz, hcz⟩

/-- Joining non-empty separator-free components with a single-character
separator is injective, even across different component counts. -/
theorem joinSep_char_inj {c : Char} : ∀ (xs ys : List (List Char)),
    (∀ x ∈ xs, x ≠ [] ∧ c ∉ x) → (∀ y ∈ ys, y ≠ [] ∧ c ∉ y) →
    joinSep [c] xs = joinSep [c] ys → xs = ys := by
  intro xs
  induction xs with
  | nil =>
    intro ys _ hys h
    cases ys with
    | nil => rfl
    | cons y s =>
      exfalso
      cases s with
      | nil =>
        simp only [joinSep] at h
        exact (hys y (by simp)).1 h.symm
      | cons z u =>
        simp only [joinSep] at h
        rcases List.append_eq_nil.mp h.symm with ⟨h1, _⟩
        rcases List.append_eq_nil.mp h1 with ⟨_, h3⟩
        simp at h3
  | cons x t ih =>
    intro ys hxs hys h
    cases ys with
    | nil =>
      exfalso
      cases t with
      | nil =>
        simp only [joinSep] at h
        exact (hxs x (by simp)).1 h
      | cons z u =>
        simp only [joinSep] at h
        rcases List.append_eq_nil.mp h with ⟨h1, _⟩
        rcases List.append_eq_nil.mp h1 with ⟨_, h3⟩
        simp at h3
    | cons y s =>
      cases t with
      | nil =>
        cases s with
        | nil =>
          simp only [joinSep] at h
          rw [h]
        | cons w v =>
          exfalso
          simp only [joinSep, List.append_assoc, List.singleton_append] at h
          exact (hxs x (by simp)).2 (h ▸ List.mem_append_right y (List.mem_cons_self c _))
      | cons z u =>
        cases s with
        | nil =>
          exfalso
          simp only [joinSep, List.append_assoc, List.singleton_append] at h
          exact (hys y (by simp)).2 (h ▸ List.mem_append_right x (List.mem_cons_self c _))
        | cons w v =>
          simp only [joinSep, List.append_assoc, List.singleton_append] at h
          obtain ⟨h1, h2⟩ := append_cons_sep_inj x y _ _ (hxs x (by simp)).2 (hys y (by simp)).2 h
          have h3 := ih (w :: v) (fun a ha => hxs a (List.mem_cons_of_mem x ha))
            (fun a ha => hys a (List.mem_cons_of_mem y ha)) h2
          rw [h1, h3]

/-- No model name contains a colon. -/
theorem modelName_colon_free : ∀ m : ModelSwitch, (':') ∉ modelName m := by
  intro m; cases m <;> decide

/-- No activation name contains a colon. -/
theorem activationName_colon_free : ∀ a : ActivationSwitch, (':') ∉ activationName a := by
  intro a; cases a <;> decide

/-- No dataset name contains a slash. -/
theorem datasetName_slash_free : ∀ d : DatasetSwitch, ('/') ∉ datasetName d := by
  intro d; cases d <;> decide

/-- Distinct model members have distinct names. -/
theorem modelName_inj : ∀ m1 m2 : ModelSwitch, modelName m1 = modelName m2 → m1 = m2 := by
  intro m1 m2
  cases m1 <;> cases m2 <;> intro h <;> first | rfl | exact absurd h (by decide)

/-- Distinct activation members have distinct names. -/
theorem activationName_inj : ∀ a1 a2 : ActivationSwitch,
    activationName a1 = activationName a2 → a1 = a2 := by
  intro a1 a2
  cases a1 <;> cases a2 <;> intro h <;> first | rfl | exact absurd h (by decide)

/-- Distinct dataset members have distinct names. -/
theorem datasetName_inj : ∀ d1 d2 : DatasetSwitch,
    datasetName d1 = datasetName d2 → d1 = d2 := by
  intro d1 d2
  cases d1 <;> cases d2 <;> intro h <;> first | rfl | exact absurd h (by decide)

/-- The underscore-joined rendering of the layer list contains no colon. -/
theorem layers_render_colon_free (l : List Nat) :
    (':') ∉ joinSep ['_'] (l.map natStr) := by
  intro h
  rcases mem_joinSep h with h | ⟨x, hx, hcx⟩
  · simp at h
  · obtain ⟨n, _, rfl⟩ := List.mem_map.mp hx
    exact (natStr_sep_free n).1 hcx

/-- The underscore-joined rendering of the layer list determines the
layer list. -/
theorem layers_render_inj (l1 l2 : List Nat)
    (h : joinSep ['_'] (l1.map natStr) = joinSep ['_'] (l2.map natStr)) : l1 = l2 := by
  have hmap := joinSep_char_inj (l1.map natStr) (l2.map natStr)
    (fun x hx => by
      obtain ⟨n, _, rfl⟩ := List.mem_map.mp hx
      exact ⟨natStr_ne_nil n, (natStr_sep_free n).2.1⟩)
    (fun x hx => by
      obtain ⟨n, _, rfl⟩ := List.mem_map.mp hx
      exact ⟨natStr_ne_nil n, (natStr_sep_free n).2.1⟩) h
  exact List.map_injective_iff.mpr natStr_injective hmap

/-- The experiment identifier determines every consumed field, provided
the printed l2 strength is colon-free (Python float printing is). -/
theorem experimentIdentifier_inj (r1 r2 : JobRecord)
    (h1 : (':') ∉ r1.l2_reg) (h2 : (':') ∉ r2.l2_reg)
    (h : get_experiment_prefix r1 = get_experiment_prefix r2) :
    r1.dataset = r2.dataset ∧ r1.model_name = r2.model_name ∧ r1.layers = r2.layers ∧
    r1.activation = r2.activation ∧ r1.seed = r2.seed ∧ r1.l2_reg = r2.l2_reg ∧
    r1.img_size = r2.img_size := by
  simp only [ get_experiment_prefix, path_join, sep_chars, joinSep,
    List.append_assoc, List.cons_append, List.nil_append] at h
  obtain ⟨hds, h⟩ := append_cons_sep_inj _ _ _ _
    (datasetName_slash_free r1.dataset) (datasetName_slash_free r2.dataset) h
  obtain ⟨hm, h⟩ := append_cons_sep_inj _ _ _ _
    (modelName_colon_free r1.model_name) (modelName_colon_free r2.model_name) h
  injection h with _ h
  obtain ⟨hl, h⟩ := append_cons_sep_inj _ _ _ _
    (layers_render_colon_free r1.layers) (layers_render_colon_free r2.layers) h
  injection h with _ h
  obtain ⟨ha, h⟩ := append_cons_sep_inj _ _ _ _
    (activationName_colon_free r1.activation) (activationName_colon_free r2.activation) h
  injection h with _ h
  obtain ⟨hs, h⟩ := append_cons_sep_inj _ _ _ _
    (natStr_sep_free r1.seed).1 (natStr_sep_free r2.seed).1 h
  injection h with _ h
  obtain ⟨hreg, h⟩ := append_cons_sep_inj _ _ _ _ h1 h2 h
  injection h with _ h
  exact ⟨datasetName_inj _ _ hds, modelName_inj _ _ hm, layers_render_inj _ _ hl,
    activationName_inj _ _ ha, natStr_injective hs, hreg, natStr_injective h⟩

/-- The slash string as an explicit character list. -/
theorem slash_chars : strChars "/" = ['/'] := rfl

/-- Claim C5: the experiment identifier is deterministic and injective
over the fields it consumes: two records differing in any of model,
layers, activation, seed, l2 strength or image size (each taken with its
colon-free printed l2 form) produce different identifiers, and two
records identical in those fields and the dataset produce identical
identifiers regardless of any other fields (extras). -/
theorem identifier_injective_deterministic (r1 r2 : JobRecord)
    (h1 : (':') ∉ r1.l2_reg) (h2 : (':') ∉ r2.l2_reg) :
    (¬ (r1.model_name = r2.model_name ∧ r1.layers = r2.layers ∧
        r1.activation = r2.activation ∧ r1.seed = r2.seed ∧
        r1.l2_reg = r2.l2_reg ∧ r1.img_size = r2.img_size) →
      get_experiment_prefix r1 ≠ get_experiment_prefix r2) ∧
    ((r1.dataset = r2.dataset ∧ r1.model_name = r2.model_name ∧ r1.layers = r2.layers ∧
        r1.activation = r2.activation ∧ r1.seed = r2.seed ∧
        r1.l2_reg = r2.l2_reg ∧ r1.img_size = r2.img_size) →
      get_experiment_prefix r1 = get_experiment_prefix r2) := by
  constructor
  · intro hne heq
    obtain ⟨_, hm, hl, ha, hs, hr, hi⟩ := experimentIdentifier_inj r1 r2 h1 h2 heq
    exact hne ⟨hm, hl, ha, hs, hr, hi⟩
  · rintro ⟨hd, hm, hl, ha, hs, hr, hi⟩
    simp only [ get_experiment_prefix]
    rw [hd, hm, hl, ha, hs, hr, hi]

/-- Witness for claim C5: changing only the seed changes the identifier,
and changing only the extras leaves it unchanged. -/
theorem identifier_injective_deterministic_witness :
    get_experiment_prefix sampleRecord ≠
      get_experiment_prefix { sampleRecord with seed := 2 } ∧
    get_experiment_prefix sampleRecord =
      get_experiment_prefix
        { sampleRecord with extras := [(strChars "epochs", strChars "10")] } :=
  ⟨(identifier_injective_deterministic sampleRecord { sampleRecord with seed := 2 }
      (by decide) (by decide)).1 (by decide),
   (identifier_injective_deterministic sampleRecord
      { sampleRecord with extras := [(strChars "epochs", strChars "10")] }
      (by decide) (by decide)).2 (by decide)⟩

/-- The two-colon string as an explicit character list. -/
theorem colon_colon_chars : strChars "::" = [':', ':'] := rfl

/-- Claim C6: for every record the identifier is the dataset name as a
path segment followed by model name, layer sizes joined by underscore,
activation name, seed, l2 strength and image size, in that order, joined
by the two-colon separator (distinct from the underscore), and the
checkpoint path is exactly checkpoints/ plus this identifier plus the
.pt extension. -/
theorem identifier_and_save_path_format (r : JobRecord) :
    get_experiment_prefix r = specIdentifier r ∧
    get_save_path r = specSavePath r ∧
    EXPERIMENT_PREFIX_SEP ≠ ['_'] := by
  have h1 : get_experiment_prefix r = specIdentifier r := by
    simp only [ get_experiment_prefix, specIdentifier, path_join, joinSep, sep_chars,
      slash_chars, colon_colon_chars, List.append_assoc, List.cons_append, List.nil_append]
  refine ⟨h1, ?_, by decide⟩
  simp only [ get_save_path, specSavePath, h1]

/-- Claim C2: the training submission filter skips a job iff its derived
checkpoint path exists on the filesystem, hands exactly the complement
to the dispatcher, and together the two parts exhaust the candidate
table. -/
theorem training_filter_complementary (fs : List Char → Bool) (rows : List JobRecord) :
    (∀ r, r ∈ (submit_training_filter fs rows).submitted ↔
        r ∈ rows ∧ fs ( get_save_path r) = false) ∧
    (∀ r, r ∈ (submit_training_filter fs rows).skipped ↔
        r ∈ rows ∧ fs ( get_save_path r) = true) ∧
    (submit_training_filter fs rows).submitted.length +
      (submit_training_filter fs rows).skipped.length = rows.length := by
  refine ⟨fun r => ?_, fun r => ?_, ?_⟩
  · simp [submit_training_filter, List.mem_filter]
  · simp [submit_training_filter, List.mem_filter]
  · have h := rows.length_eq_length_filter_add (fun r => fs ( get_save_path r))
    simp only [submit_training_filter]
    omega

/-- Claim C1 (amended): the gradient submission filter hands to the
dispatcher exactly the jobs whose checkpoint exists and whose output
directory does not, reports as checkpoint-missing exactly the jobs whose
checkpoint is missing, and reports as output-exists exactly the jobs
whose output directory exists (the whole of O, whether or not the
checkpoint exists). -/
theorem grads_filter_sets (fs : List Char → Bool) (outputRoot : List Char)
    (rows : List JobRecord) :
    (∀ r, r ∈ (submit_grads_filter fs outputRoot rows).submitted ↔
        r ∈ rows ∧ fs ( get_save_path r) = true ∧
          fs (path_join outputRoot ( get_experiment_prefix r)) = false) ∧
    (∀ r, r ∈ (submit_grads_filter fs outputRoot rows).checkpointMissing ↔
        r ∈ rows ∧ fs ( get_save_path r) = false) ∧
    (∀ r, r ∈ (submit_grads_filter fs outputRoot rows).outputExists ↔
        r ∈ rows ∧ fs (path_join outputRoot ( get_experiment_prefix r)) = true) := by
  refine ⟨fun r => ?_, fun r => ?_, fun r => ?_⟩ <;>
    simp [submit_grads_filter, List.mem_filter]

/-- Counterexample to claim C1 as stated: one candidate job whose
checkpoint is missing while its output directory exists is reported in
the output-exists list, although the intersection of O with C is empty
there. -/
theorem grads_output_report_counterexample :
    (submit_grads_filter sampleFsOutputOnly (strChars "outputs")
        [sampleRecord]).outputExists = [sampleRecord] ∧
    sampleFsOutputOnly ( get_save_path sampleRecord) = false := by decide

/-- Witness for claim C1: on the counterexample filesystem the filter
submits nothing, reports the job as output-existing, and does not report
it as checkpoint-present. -/
theorem grads_filter_sets_witness :
    (sampleRecord ∈ (submit_grads_filter sampleFsOutputOnly (strChars "outputs")
        [sampleRecord]).outputExists ↔
      sampleRecord ∈ [sampleRecord] ∧
        sampleFsOutputOnly (path_join (strChars "outputs")
          ( get_experiment_prefix sampleRecord)) = true) :=
  (grads_filter_sets sampleFsOutputOnly (strChars "outputs") [sampleRecord]).2.2 sampleRecord

/-- If every job succeeds, the sequential wait returns all results in
submission order. -/
theorem collectResults_all_ok {ρ E R : Type} (runJob : ρ → Except E R) (g : ρ → R) :
    ∀ l : List ρ, (∀ r ∈ l, runJob r = .ok (g r)) →
      collectResults runJob l = .ok (l.map g) := by
  intro l
  induction l with
  | nil => intro _; rfl
  | cons j js ih =>
    intro h
    have hj := h j (List.mem_cons_self j js)
    have hrest := ih (fun r hr => h r (List.mem_cons_of_mem j hr))
    simp [collectResults, hj, hrest]

/-- The first failing job aborts the sequential wait at the point its
result is requested: the failure propagates and no later result is
fetched, whatever comes afterwards. -/
theorem collectResults_first_error {ρ E R : Type} (runJob : ρ → Except E R) :
    ∀ (pre : List ρ) (bad : ρ) (post : List ρ) (e : E),
      (∀ r ∈ pre, ∃ v, runJob r = .ok v) → runJob bad = .error e →
      collectResults runJob (pre ++ bad :: post) = .error e := by
  intro pre
  induction pre with
  | nil =>
    intro bad post e _ hbad
    simp [collectResults, hbad]
  | cons p ps ih =>
    intro bad post e hpre hbad
    obtain ⟨v, hv⟩ := hpre p (List.mem_cons_self p ps)
    have hrest := ih bad post e (fun r hr => hpre r (List.mem_cons_of_mem p hr)) hbad
    simp [collectResults, hv, hrest]

/-- Counterexample to claim C3 as stated: with the port flag set and an
empty table, the truncation step raises an index error instead of
returning without error. -/
theorem empty_table_error_counterexample :
    (execute_job_submission false (some 0) ([] : List Nat) (strChars "y")
        (fun n => (Except.ok n : Except Nat Nat))).outcome =
      Except.error PyRunError.indexErr := rfl

/-- Claim C3 (amended): on an empty candidate table the dispatcher never
reaches the confirmation prompt and never creates a job; with the port
flag unset it returns with no result and no error, but with the port
flag set (any value) the truncation step fails with an index error on
the empty list before the empty-table check runs. -/
theorem empty_table_behavior {ρ E R : Type} (block_main : Bool) (port : Option Int)
    (user : List Char) (runJob : ρ → Except E R) :
    (port = none →
      execute_job_submission block_main port ([] : List ρ) user runJob =
        { promptShown := false, funcCalls := [], outcome := .ok none }) ∧
    (∀ p : Int, port = some p →
      execute_job_submission block_main port ([] : List ρ) user runJob =
        { promptShown := false, funcCalls := [],
          outcome := .error PyRunError.indexErr }) := by
  constructor
  · rintro rfl
    rfl
  · rintro p rfl
    rfl

/-- Witness for claim C3: both empty-table behaviours at concrete
inputs. -/
theorem empty_table_behavior_witness :
    execute_job_submission false none ([] : List Nat) (strChars "y")
        (fun n => (Except.ok n : Except Nat Nat)) =
      { promptShown := false, funcCalls := [], outcome := .ok none } ∧
    execute_job_submission false (some 5) ([] : List Nat) (strChars "y")
        (fun n => (Except.ok n : Except Nat Nat)) =
      { promptShown := false, funcCalls := [],
        outcome := .error PyRunError.indexErr } :=
  ⟨(empty_table_behavior false none (strChars "y")
      (fun n => (Except.ok n : Except Nat Nat))).1 rfl,
   (empty_table_behavior false (some 5) (strChars "y")
      (fun n => (Except.ok n : Except Nat Nat))).2 5 rfl⟩

/-- Claim C7: in local mode (port zero), with a non-empty table and a
confirming operator reply, the dispatcher calls the job function exactly
once, synchronously, with only the first record, issues no remote
dispatch, and returns no result; no other record is ever executed. -/
theorem local_mode_first_record_only {ρ E R : Type} (block_main : Bool) (r : ρ)
    (rest : List ρ) (user : List Char) (runJob : ρ → Except E R)
    (huser : user = strChars "y") :
    execute_job_submission block_main (some 0) (r :: rest) user runJob =
      { promptShown := true, funcCalls := [FuncArg.wholeTable [r]],
        outcome := .ok none } ∧
    dispatchedRecords (execute_job_submission block_main (some 0) (r :: rest) user runJob) =
      [r] := by
  subst huser
  refine ⟨?_, ?_⟩ <;>
    simp [execute_job_submission, dispatchAfterChecks, dispatchedRecords]

/-- Witness for claim C7: a three-row table in local mode runs only the
first record. -/
theorem local_mode_first_record_only_witness :
    execute_job_submission false (some 0) [10, 20, 30] (strChars "y")
        (fun n => (Except.ok n : Except Nat Nat)) =
      { promptShown := true, funcCalls := [FuncArg.wholeTable [10]],
        outcome := .ok none } ∧
    dispatchedRecords (execute_job_submission false (some 0) [10, 20, 30] (strChars "y")
        (fun n => (Except.ok n : Except Nat Nat))) = [10] :=
  local_mode_first_record_only false 10 [20, 30] (strChars "y")
    (fun n => (Except.ok n : Except Nat Nat)) rfl

/-- Claim C8: in remote array mode, when the blocking flag is set the
dispatcher waits for every job result sequentially in submission order
and returns the collected results; a failing job propagates at the point
its result is requested, aborting the wait for all subsequent results;
when the flag is not set the dispatcher returns with no results
immediately after submission. -/
theorem blocking_wait_semantics {ρ E R : Type} (rows : List ρ)
    (runJob : ρ → Except E R) (hne : rows ≠ []) :
    (∀ g : ρ → R, (∀ r ∈ rows, runJob r = .ok (g r)) →
      (execute_job_submission true none rows (strChars "y") runJob).outcome =
        .ok (some (rows.map g))) ∧
    (∀ (pre : List ρ) (bad : ρ) (post : List ρ) (e : E),
      rows = pre ++ bad :: post → (∀ r ∈ pre, ∃ v, runJob r = .ok v) →
      runJob bad = .error e →
      (execute_job_submission true none rows (strChars "y") runJob).outcome =
        .error (PyRunError.jobErr e)) ∧
    (execute_job_submission false none rows (strChars "y") runJob).outcome = .ok none := by
  have hlen : ¬ rows.length = 0 := fun h => hne (List.length_eq_zero.mp h)
  refine ⟨?_, ?_, ?_⟩
  · intro g hg
    have hcr := collectResults_all_ok runJob g rows hg
    simp [execute_job_submission, dispatchAfterChecks, hlen, hcr]
  · intro pre bad post e hrows hpre hbad
    have hcr := collectResults_first_error runJob pre bad post e hpre hbad
    subst hrows
    simp [execute_job_submission, dispatchAfterChecks, hlen, hcr]
  · simp [execute_job_submission, dispatchAfterChecks, hlen]

/-- Witness for claim C8: a two-job table collects both results in order
when both succeed, propagates the failure of the second job when it
fails, and returns nothing when not blocking. -/
theorem blocking_wait_semantics_witness :
    (execute_job_submission true none [1, 2] (strChars "y")
        (fun n => (Except.ok (n + 10) : Except Nat Nat))).outcome =
      .ok (some [11, 12]) ∧
    (execute_job_submission true none [1, 2] (strChars "y")
        (fun n => if n = 2 then (Except.error 9 : Except Nat Nat)
          else Except.ok n)).outcome = .error (PyRunError.jobErr 9) ∧
    (execute_job_submission false none [1, 2] (strChars "y")
        (fun n => (Except.ok (n + 10) : Except Nat Nat))).outcome = .ok none :=
  ⟨(blocking_wait_semantics [1, 2] (fun n => (Except.ok (n + 10) : Except Nat Nat))
      (by decide)).1 (fun n => n + 10) (by decide),
   (blocking_wait_semantics [1, 2]
      (fun n => if n = 2 then (Except.error 9 : Except Nat Nat) else Except.ok n)
      (by decide)).2.1 [1] 2 [] 9 rfl
      (fun r hr => by
        simp only [List.mem_singleton] at hr
        subst hr
        exact ⟨1, rfl⟩) (by decide),
   (blocking_wait_semantics [1, 2] (fun n => (Except.ok (n + 10) : Except Nat Nat))
      (by decide)).2.2⟩

/-- Claim C9: whenever the port flag is set (zero or positive), the
dispatcher truncates the job list to its first record before any
dispatch: at most one job is ever dispatched, any dispatched record is
the first row, and with a positive port value the single record still
goes through the remote array executor. -/
theorem port_set_truncates {ρ E R : Type} (block_main : Bool) (p : Int)
    (rows : List ρ) (user : List Char) (runJob : ρ → Except E R) :
    (dispatchedRecords (execute_job_submission block_main (some p) rows user runJob)).length ≤ 1 ∧
    (∀ x ∈ dispatchedRecords (execute_job_submission block_main (some p) rows user runJob),
      rows.head? = some x) ∧
    (∀ (r : ρ) (rest : List ρ), rows = r :: rest → user = strChars "y" → p ≠ 0 →
      (execute_job_submission block_main (some p) rows user runJob).funcCalls =
        [FuncArg.singleRecord r]) := by
  cases rows with
  | nil =>
    refine ⟨?_, ?_, ?_⟩
    · simp [execute_job_submission, dispatchedRecords]
    · simp [execute_job_submission, dispatchedRecords]
    · intro r rest h
      exact absurd h (by simp)
  | cons r rest =>
    by_cases huser : user = strChars "y"
    · subst huser
      by_cases hp : p = 0
      · subst hp
        refine ⟨?_, ?_, ?_⟩
        · simp [execute_job_submission, dispatchAfterChecks, dispatchedRecords]
        · simp [execute_job_submission, dispatchAfterChecks, dispatchedRecords]
        · intro r2 rest2 _ _ hp0
          exact absurd rfl hp0
      · have hcalls :
            (execute_job_submission block_main (some p) (r :: rest) (strChars "y")
              runJob).funcCalls = [FuncArg.singleRecord r] := by
          cases block_main with
          | false => simp [execute_job_submission, dispatchAfterChecks, hp]
          | true =>
            cases hcr : collectResults runJob [r] with
            | ok v => simp [execute_job_submission, dispatchAfterChecks, hp, hcr]
            | error e => simp [execute_job_submission, dispatchAfterChecks, hp, hcr]
        refine ⟨?_, ?_, ?_⟩
        · simp [dispatchedRecords, hcalls]
        · simp [dispatchedRecords, hcalls]
        · intro r2 rest2 heq _ _
          injection heq with h1 _
          rw [← h1]
          exact hcalls
    · refine ⟨?_, ?_, ?_⟩
      · simp [execute_job_submission, dispatchAfterChecks, huser, dispatchedRecords]
      · simp [execute_job_submission, dispatchAfterChecks, huser, dispatchedRecords]
      · intro r2 rest2 _ hu
        exact absurd hu huser

/-- Witness for claim C9: with port five and three rows, only the first
record is dispatched, through the remote path. -/
theorem port_set_truncates_witness :
    (dispatchedRecords (execute_job_submission false (some 5) [10, 20, 30] (strChars "y")
        (fun n => (Except.ok n : Except Nat Nat)))).length ≤ 1 ∧
    (execute_job_submission false (some 5) [10, 20, 30] (strChars "y")
        (fun n => (Except.ok n : Except Nat Nat))).funcCalls =
      [FuncArg.singleRecord 10] :=
  ⟨(port_set_truncates false 5 [10, 20, 30] (strChars "y")
      (fun n => (Except.ok n : Except Nat Nat))).1,
   (port_set_truncates false 5 [10, 20, 30] (strChars "y")
      (fun n => (Except.ok n : Except Nat Nat))).2.2 10 [20, 30] rfl rfl (by decide)⟩

/-- Claim C10: in local mode the job function is called exactly once
with the whole one-element list of records as its single argument, while
in remote array mode the executor maps the function over the records so
each call receives one record; the two argument shapes are distinct. -/
theorem argument_shape_local_vs_remote {ρ E R : Type} :
    (∀ (block_main : Bool) (r : ρ) (rest : List ρ) (runJob : ρ → Except E R),
      (execute_job_submission block_main (some 0) (r :: rest) (strChars "y")
        runJob).funcCalls = [FuncArg.wholeTable [r]]) ∧
    (∀ (block_main : Bool) (rows : List ρ) (runJob : ρ → Except E R), rows ≠ [] →
      (execute_job_submission block_main none rows (strChars "y") runJob).funcCalls =
        rows.map FuncArg.singleRecord) ∧
    (∀ r : ρ, FuncArg.wholeTable [r] ≠ FuncArg.singleRecord r) := by
  refine ⟨?_, ?_, ?_⟩
  · intro block_main r rest runJob
    simp [execute_job_submission, dispatchAfterChecks]
  · intro block_main rows runJob hne
    have hlen : ¬ rows.length = 0 := fun h => hne (List.length_eq_zero.mp h)
    cases block_main with
    | false => simp [execute_job_submission, dispatchAfterChecks, hlen]
    | true =>
      cases hcr : collectResults runJob rows with
      | ok v => simp [execute_job_submission, dispatchAfterChecks, hlen, hcr]
      | error e => simp [execute_job_submission, dispatchAfterChecks, hlen, hcr]
  · intro r h
    exact FuncArg.noConfusion h

/-- Witness for claim C10: both argument shapes on a concrete two-row
table. -/
theorem argument_shape_local_vs_remote_witness :
    (execute_job_submission false (some 0) [1, 2] (strChars "y")
        (fun n => (Except.ok n : Except Nat Nat))).funcCalls =
      [FuncArg.wholeTable [1]] ∧
    (execute_job_submission false none [1, 2] (strChars "y")
        (fun n => (Except.ok n : Except Nat Nat))).funcCalls =
      [FuncArg.singleRecord 1, FuncArg.singleRecord 2] :=
  ⟨(argument_shape_local_vs_remote).1 false 1 [2]
      (fun n => (Except.ok n : Except Nat Nat)),
   (argument_shape_local_vs_remote).2.1 false [1, 2]
      (fun n => (Except.ok n : Except Nat Nat)) (by decide)⟩

/-- Flat-mapping a function whose blocks all have length Q multiplies
the length by Q. -/
theorem flatMap_const_length {α β : Type} (f : α → List β) (Q : Nat)
    (hf : ∀ x, (f x).length = Q) : ∀ l : List α, (l.flatMap f).length = l.length * Q := by
  intro l
  induction l with
  | nil => simp
  | cons a t ih =>
    simp only [List.flatMap_cons, List.length_append, hf, ih, List.length_cons]
    ring

/-- The expanded table has exactly product-many records. -/
theorem listProduct_length {α : Type} : ∀ ls : List (List α),
    (listProduct ls).length = (ls.map List.length).prod := by
  intro ls
  induction ls with
  | nil => rfl
  | cons l ls ih =>
    have hf : ∀ x : α, ((listProduct ls).map (fun t => x :: t)).length =
        (ls.map List.length).prod := fun x => by rw [List.length_map, ih]
    simp only [listProduct, flatMap_const_length _ _ hf l, List.map_cons, List.prod_cons]

/-- A record is produced exactly when it selects one value from each
value list, in order. -/
theorem listProduct_mem {α : Type} : ∀ (ls : List (List α)) (r : List α),
    r ∈ listProduct ls ↔ List.Forall₂ (fun x l => x ∈ l) r ls := by
  intro ls
  induction ls with
  | nil =>
    intro r
    simp [listProduct, List.forall₂_nil_right_iff]
  | cons l ls ih =>
    intro r
    simp only [listProduct, List.mem_flatMap, List.mem_map]
    constructor
    · rintro ⟨x, hx, t, ht, rfl⟩
      exact List.Forall₂.cons hx ((ih t).mp ht)
    · intro h
      rcases List.forall₂_cons_right_iff.mp h with ⟨x, t, hx, ht, rfl⟩
      exact ⟨x, hx, t, (ih t).mpr ht, rfl⟩

/-- With duplicate-free value lists the expanded table is
duplicate-free. -/
theorem listProduct_nodup {α : Type} : ∀ ls : List (List α), (∀ l ∈ ls, l.Nodup) →
    (listProduct ls).Nodup := by
  intro ls
  induction ls with
  | nil => intro _; simp [listProduct]
  | cons l ls ih =>
    intro h
    have hl : l.Nodup := h l (List.mem_cons_self l ls)
    have hP : (listProduct ls).Nodup := ih (fun x hx => h x (List.mem_cons_of_mem l hx))
    refine List.nodup_flatMap.mpr ⟨fun x _ => hP.map (fun t1 t2 ht => ?_), ?_⟩
    · injection ht
    · refine hl.imp (fun hab t ht1 ht2 => ?_)
      obtain ⟨t1, _, rfl⟩ := List.mem_map.mp ht1
      obtain ⟨t2, _, he⟩ := List.mem_map.mp ht2
      exact hab (List.head_eq_of_cons_eq he.symm)

/-- In a duplicate-free list a member is hit by the equality test
exactly once. -/
theorem countP_eq_one_of_nodup_mem {β : Type} [DecidableEq β] :
    ∀ (l : List β) (a : β), l.Nodup → a ∈ l →
      l.countP (fun t => decide (t = a)) = 1 := by
  intro l
  induction l with
  | nil => intro a _ h; simp at h
  | cons b t ih =>
    intro a hnd hmem
    have hb : b ∉ t := (List.nodup_cons.mp hnd).1
    have ht : t.Nodup := (List.nodup_cons.mp hnd).2
    rw [List.countP_cons]
    rcases List.mem_cons.mp hmem with rfl | hat
    · have h0 : t.countP (fun x => decide (x = a)) = 0 := by
        refine List.countP_eq_zero.mpr (fun x hx => ?_)
        simp only [decide_eq_true_eq]
        rintro rfl
        exact hb hx
      simp [h0]
    · have ha : ¬ b = a := fun he => hb (he ▸ hat)
      simp [ih a ht hat, ha]

/-- The mixed-radix position of a valid index tuple is in range. -/
theorem rankIdx_lt {α : Type} : ∀ (ls : List (List α)) (is : List Nat),
    List.Forall₂ (fun i l => i < l.length) is ls →
    rankIdx ls is < (ls.map List.length).prod := by
  intro ls is h
  induction h with
  | nil => simp [rankIdx]
  | @cons i l is2 ls2 hi htail ih =>
    simp only [rankIdx, List.map_cons, List.prod_cons]
    calc i * (ls2.map List.length).prod + rankIdx ls2 is2
        < i * (ls2.map List.length).prod + (ls2.map List.length).prod := by omega
      _ = (i + 1) * (ls2.map List.length).prod := by ring
      _ ≤ l.length * (ls2.map List.length).prod := Nat.mul_le_mul_right _ hi

/-- Indexing into a flat map with uniform block length Q at position
i times Q plus r lands at offset r of block i. -/
theorem flatMap_uniform_getElem {α β : Type} [Inhabited α] (f : α → List β) (Q : Nat)
    (hf : ∀ x, (f x).length = Q) : ∀ (l : List α) (i r : Nat), i < l.length → r < Q →
    (l.flatMap f)[i * Q + r]? = (f (l.getD i default))[r]? := by
  intro l
  induction l with
  | nil => intro i r hi _; simp at hi
  | cons a t ih =>
    intro i r hi hr
    cases i with
    | zero =>
      simp only [List.flatMap_cons, Nat.zero_mul, Nat.zero_add, List.getD_cons_zero]
      exact List.getElem?_append_left (by rw [hf a]; exact hr)
    | succ i2 =>
      have hQle : Q ≤ (i2 + 1) * Q := Nat.le_mul_of_pos_left Q (Nat.succ_pos i2)
      have hlen : (f a).length ≤ (i2 + 1) * Q + r := by
        rw [hf a]; omega
      rw [List.flatMap_cons, List.getElem?_append_right hlen]
      have hidx : (i2 + 1) * Q + r - (f a).length = i2 * Q + r := by
        rw [hf a, Nat.succ_mul]; omega
      rw [hidx, ih i2 r (Nat.lt_of_succ_lt_succ hi) hr, List.getD_cons_succ]

/-- The record at the mixed-radix position of a valid index tuple is the
corresponding selection: the expanded table is ordered with the last
value list iterating fastest. -/
theorem listProduct_getElem {α : Type} [Inhabited α] : ∀ (ls : List (List α)) (is : List Nat),
    List.Forall₂ (fun i l => i < l.length) is ls →
    (listProduct ls)[rankIdx ls is]? = some (selectIdx ls is) := by
  intro ls is h
  induction h with
  | nil => rfl
  | @cons i l is2 ls2 hi htail ih =>
    have hQ : ∀ x : α, ((listProduct ls2).map (fun t => x :: t)).length =
        (ls2.map List.length).prod := fun x => by rw [List.length_map, listProduct_length]
    have hrlt : rankIdx ls2 is2 < (ls2.map List.length).prod := rankIdx_lt ls2 is2 htail
    simp only [listProduct, rankIdx, selectIdx]
    rw [flatMap_uniform_getElem _ _ hQ l i (rankIdx ls2 is2) hi hrlt,
      List.getElem?_map, ih]
    rfl

/-- Claim C4: the grid expander produces exactly the cartesian product:
the record count is the product of the value-list lengths, a record is
produced iff it picks one value from each list in order, with
duplicate-free value lists every combination appears exactly once, the
record at the mixed-radix position of an index tuple sits where the last
parameter iterates fastest, and any empty value list yields zero records
rather than an error. -/
theorem grid_expansion_product {α : Type} [DecidableEq α] [Inhabited α]
    (ls : List (List α)) :
    (listProduct ls).length = (ls.map List.length).prod ∧
    (∀ r : List α, r ∈ listProduct ls ↔ List.Forall₂ (fun x l => x ∈ l) r ls) ∧
    ((∀ l ∈ ls, l.Nodup) → ∀ r ∈ listProduct ls,
      (listProduct ls).countP (fun t => decide (t = r)) = 1) ∧
    (∀ is : List Nat, List.Forall₂ (fun i l => i < l.length) is ls →
      (listProduct ls)[rankIdx ls is]? = some (selectIdx ls is)) ∧
    ([] ∈ ls → listProduct ls = []) := by
  refine ⟨listProduct_length ls, listProduct_mem ls, ?_,
    fun is h => listProduct_getElem ls is h, ?_⟩
  · intro hnd r hr
    exact countP_eq_one_of_nodup_mem (listProduct ls) r (listProduct_nodup ls hnd) hr
  · intro hmem
    have h0 : (0 : Nat) ∈ ls.map List.length := List.mem_map.mpr ⟨[], hmem, rfl⟩
    have hlen := listProduct_length ls
    rw [List.prod_eq_zero h0] at hlen
    exact List.length_eq_zero.mp hlen

/-- Witness for claim C4: a concrete two-by-three grid has six records,
unit counts, last-parameter-fastest ordering at index tuple one-two, and
a grid with an empty middle list expands to nothing. -/
theorem grid_expansion_product_witness :
    (listProduct [[1, 2], [5, 6, 7]]).length = 6 ∧
    ([2, 5] ∈ listProduct [[1, 2], [5, 6, 7]] ↔
      List.Forall₂ (fun x l => x ∈ l) [2, 5] [[1, 2], [5, 6, 7]]) ∧
    (listProduct [[1, 2], [5, 6, 7]]).countP (fun t => decide (t = [2, 7])) = 1 ∧
    (listProduct [[1, 2], [5, 6, 7]])[rankIdx [[1, 2], [5, 6, 7]] [1, 2]]? =
      some (selectIdx [[1, 2], [5, 6, 7]] [1, 2]) ∧
    listProduct [[1, 2], ([] : List Nat), [3]] = [] :=
  ⟨((grid_expansion_product [[1, 2], [5, 6, 7]]).1).trans (by decide),
   (grid_expansion_product [[1, 2], [5, 6, 7]]).2.1 [2, 5],
   (grid_expansion_product [[1, 2], [5, 6, 7]]).2.2.1 (by decide) [2, 7] (by decide),
   (grid_expansion_product [[1, 2], [5, 6, 7]]).2.2.2.1 [1, 2]
     (List.Forall₂.cons (by decide) (List.Forall₂.cons (by decide) List.Forall₂.nil)),
   (grid_expansion_product [[1, 2], ([] : List Nat), [3]]).2.2.2.2 (by decide)⟩
